import Mathlib

/-!
# A verification model of the jumpDB SST engine

This file is a shallow embedding of `sst_engine/sst_engine.py`, the core of a
log-structured-merge key-value store, together with theorems about it.

Modelling conventions, chosen to mirror the Python source:

* Keys and values are `String`, compared with the lexicographic order that
  Python uses on `str` (identical to Lean's `String` order on ASCII data).
* `TOMBSTONE` in the source is a `bytes` sentinel, type-distinct from every
  legitimate `str` value, so a memtable slot is modelled as `Option Value`
  with `none` standing for the tombstone.
* A `sortedcontainers.SortedDict` is modelled as a strictly key-sorted
  association list; insertion keeps the order and replaces an existing key.
* File byte offsets are modelled as record indices within a segment: inside a
  single segment the two are order-isomorphic (`seek(off)` followed by line
  reads starts at the record written at `off`).  `DB.get` also reuses one
  segment's offset when scanning a different segment; the model applies the
  same record index there, which matches the bytes-level behaviour whenever
  all records have equal encoded length (in particular at offset 0, the only
  offset exercised by the concrete states studied below).
* The `ScalableBloomFilter` is modelled by the exact set of keys added to it.
  The real filter reports every added key (no false negatives) plus possibly
  spurious members; soundness statements phrased on the exact set therefore
  cover the real filter, and a filter with no additions rejects everything.
* `time.time()` timestamps are modelled by a monotonic `Nat` counter stored
  in the engine state; only their relative order is ever used by the source.
-/

abbrev Key := String
abbrev Value := String

/-! ## The order on keys

Python compares `str` values lexicographically by code point.  Lean's
built-in `String.lt` has the same meaning but is implemented with byte
iterators that the kernel cannot reduce, so the order is defined here
directly on the character lists; `decide` and `rfl` can then evaluate every
comparison. -/

/-- Lexicographic strict order on character lists, by code point. -/
def strLtL : List Char → List Char → Bool
  | [], [] => false
  | [], _ :: _ => true
  | _ :: _, [] => false
  | a :: as, b :: bs =>
    if a.toNat < b.toNat then true
    else if b.toNat < a.toNat then false
    else strLtL as bs

/-- Python's `<` on `str`. -/
def strLt (a b : Key) : Bool := strLtL a.data b.data

/-- Python's `<=` on `str` (a total order, so `a <= b` iff `not (b < a)`). -/
def strLe (a b : Key) : Bool := !(strLt b a)

/-- The tombstone sentinel: in the source a `bytes` constant
(`uuid5(NAMESPACE_OID, 'TOMBSTONE')`) that no legitimate `str` value can
equal; modelled by `none` in `Option Value` slots. -/
def TOMBSTONE : Option Value := none

/-! ## Sorted association lists (the model of `SortedDict`) -/

/-- Insert `(k, v)` into a strictly key-sorted association list, replacing an
existing binding of `k`; models `SortedDict.__setitem__`. -/
def sdInsert {β : Type} (l : List (Key × β)) (k : Key) (v : β) : List (Key × β) :=
  match l with
  | [] => [(k, v)]
  | (k', v') :: rest =>
    if strLt k k' then (k, v) :: (k', v') :: rest
    else if k = k' then (k, v) :: rest
    else (k', v') :: sdInsert rest k v

/-- Look up `k`; models `SortedDict.__getitem__` / `__contains__`. -/
def sdLookup {β : Type} (l : List (Key × β)) (k : Key) : Option β :=
  match l with
  | [] => none
  | (k', v') :: rest => if k = k' then some v' else sdLookup rest k

/-- The greatest binding with key `≤ item` of a sorted association list;
models `next(sorted_dict.irange(maximum=item, reverse=True))` together with
the subsequent `sorted_dict[closest_key]` lookup.  Returns `none` exactly
when the iterator is empty, in which case the source's bare `next(...)`
raises `StopIteration`. -/
def sdClosestLE {β : Type} (l : List (Key × β)) (item : Key) : Option (Key × β) :=
  match l with
  | [] => none
  | (k', v') :: rest =>
    if strLe k' item then
      match sdClosestLE rest item with
      | some r => some r
      | none => some (k', v')
    else none

/-! ## Segments -/

/-- `Segment`: a sorted string table on disk.  `entries` is the decoded
record sequence of the file; `timestamp` is the creation time embedded in
the file name (modelled as a `Nat`, only its order is used). -/
structure Segment where
  entries : List (Key × Value)
  timestamp : Nat
deriving DecidableEq, Repr

/-- `Segment.search(query, offset)`: seek to `offset` and linearly scan to
end of file for a record whose key equals `query`. -/
def Segment.search (s : Segment) (query : Key) (offset : Nat) : Option (Key × Value) :=
  (s.entries.drop offset).find? (fun e => e.1 == query)

/-- `search_entry_in_segment(segment, key, offset)`. -/
def searchEntryInSegment (s : Segment) (key : Key) (offset : Nat) : Option (Key × Value) :=
  s.search key offset

/-- The state of one open write session on a segment file:
the records appended so far and `previous_entry_key`. -/
structure WriteSegment where
  entries : List (Key × Value)
  previousEntryKey : Option Key
deriving DecidableEq, Repr

/-- The error raised by `Segment.add_entry` for out-of-order keys. -/
inductive SegWriteError where
  | unsortedEntries
deriving DecidableEq, Repr

/-- `Segment.add_entry(entry)`: raises `UnsortedEntries` when a previous key
exists in this session and `previous_entry_key > key`; otherwise appends the
record and returns the position of its first byte (modelled as its record
index). -/
def addEntry (w : WriteSegment) (k : Key) (v : Value) :
    Except SegWriteError (Nat × WriteSegment) :=
  match w.previousEntryKey with
  | some p =>
    if strLt k p then .error .unsortedEntries
    else .ok (w.entries.length, ⟨w.entries ++ [(k, v)], some k⟩)
  | none => .ok (w.entries.length, ⟨w.entries ++ [(k, v)], some k⟩)

/-! ## The k-way merge (`chain_segments`)

The Python generator keeps a `heapq` ordered by `(key, -timestamp)`.  It
seeds the heap with the first record of every non-empty segment and, after
every pop, immediately pushes that segment's next record (if any).  The heap
therefore always holds exactly the earliest unconsumed record of each
non-exhausted segment, so popping the heap minimum is the same as choosing,
among the non-empty remaining streams, the one whose head record minimises
`(key ascending, timestamp descending)` and consuming that head.  The model
below implements exactly that selection.  Heap ties (equal key and equal
timestamp across two segments) are broken in the source by comparing the
entry and segment objects; the model prefers the earlier segment of the
list — the correctness theorem assumes pairwise distinct timestamps, where
no tie can arise. -/

/-- A record tagged with the timestamp of the segment it came from. -/
abbrev TEntry := (Key × Value) × Nat

/-- The heap order of `chain_segments`: key ascending, then timestamp
descending (the source pushes `(key, -timestamp, ...)`). -/
def teLE (a b : TEntry) : Prop :=
  strLt a.1.1 b.1.1 = true ∨ (a.1.1 = b.1.1 ∧ b.2 ≤ a.2)

instance teLE.dec (a b : TEntry) : Decidable (teLE a b) :=
  inferInstanceAs (Decidable (_ ∨ _))

/-- Pop the minimum head.  Returns the chosen tagged record together with the
remaining streams (the chosen segment advanced by one record). -/
def popMin : List Segment → Option (TEntry × List Segment)
  | [] => none
  | s :: rest =>
    match s.entries with
    | [] => (popMin rest).map (fun p => (p.1, s :: p.2))
    | e :: tail =>
      match popMin rest with
      | none => some ((e, s.timestamp), { entries := tail, timestamp := s.timestamp } :: rest)
      | some (te', rest') =>
        if teLE (e, s.timestamp) te' then
          some ((e, s.timestamp), { entries := tail, timestamp := s.timestamp } :: rest)
        else
          some (te', s :: rest')

/-- Total number of records remaining across all streams. -/
def totalSize (segs : List Segment) : Nat :=
  (segs.map (fun s => s.entries.length)).sum

/-- The merge loop of `chain_segments`: pop the minimum head; if its key
equals the previously yielded key it comes from an older segment and is
dropped, otherwise it is yielded.  `fuel` bounds the recursion; the wrapper
supplies `totalSize`, which is exactly the number of iterations. -/
def chainGo (fuel : Nat) (prev : Option Key) (segs : List Segment) : List (Key × Value) :=
  match fuel with
  | 0 => []
  | fuel + 1 =>
    match popMin segs with
    | none => []
    | some (te, segs') =>
      if prev = some te.1.1 then chainGo fuel prev segs'
      else te.1 :: chainGo fuel (some te.1.1) segs'

/-- `chain_segments(*segments)`: the deduplicated, recency-resolving k-way
merge of the given segments. -/
def chainSegments (segs : List Segment) : List (Key × Value) :=
  chainGo (totalSize segs) none segs

/-! ## Engine state -/

/-- `KeyDirEntry`: a sparse-index locator.  The source stores the `Segment`
object itself; in every reachable state that object sits in
`_immutable_segments` at the position it had when the locator was inserted
(the list only grows by appends between the wholesale rebuilds that also
clear the index), so the locator is modelled by that position, and
`_immutable_segments.index(segment)` returns it. -/
structure KeyDirEntry where
  offset : Nat
  segIdx : Nat
deriving DecidableEq, Repr

/-- The in-memory sorted buffer. -/
structure MemTable where
  entries : List (Key × Option Value)
  maxSize : Nat
deriving DecidableEq, Repr

/-- `MemTable.__setitem__` (no capacity check in the source). -/
def MemTable.set (m : MemTable) (k : Key) (v : Option Value) : MemTable :=
  { m with entries := sdInsert m.entries k v }

/-- `MemTable.capacity_reached`: `len(entries) >= max_size`. -/
def MemTable.capacityReached (m : MemTable) : Bool :=
  m.maxSize ≤ m.entries.length

/-- `MemTable.clear`. -/
def MemTable.clear (m : MemTable) : MemTable :=
  { m with entries := [] }

/-- The full engine state of class `DB`. -/
structure DB where
  memTable : MemTable
  maxInmemorySize : Nat
  immutableSegments : List Segment
  sparseMemoryIndex : List (Key × KeyDirEntry)
  sparseOffset : Nat
  segmentSize : Nat
  entriesDeleted : Nat
  bloomFilter : List Key
  mergeThreshold : Nat
  nextTimestamp : Nat
deriving DecidableEq, Repr

/-- `DB.__init__` without a `path` argument. -/
def DB.new (maxInmemorySize sparseOffset segmentSize mergeThreshold : Nat) : DB :=
  { memTable := ⟨[], maxInmemorySize⟩
    maxInmemorySize := maxInmemorySize
    immutableSegments := []
    sparseMemoryIndex := []
    sparseOffset := sparseOffset
    segmentSize := segmentSize
    entriesDeleted := 0
    bloomFilter := []
    mergeThreshold := mergeThreshold
    nextTimestamp := 0 }

/-- `ScalableBloomFilter.add`, on the exact-set model. -/
def bloomAdd (filter : List Key) (k : Key) : List Key :=
  if filter.contains k then filter else k :: filter

/-- The ways `DB.get` can terminate abnormally: the bare
`next(irange(...))` raising `StopIteration`, or a locator whose segment is
not in the list (`list.index` raising `ValueError`; unreachable from the
public API). -/
inductive LookupError where
  | stopIteration
  | badLocator
deriving DecidableEq, Repr

/-- Scan the given segments in order, returning the first match; models the
final `for next_segment in ...` loop of `DB.get`, which reuses the sparse
hit's `offset` in every segment it scans. -/
def scanSegments (segs : List Segment) (item : Key) (offset : Nat) : Option Value :=
  match segs with
  | [] => none
  | s :: rest =>
    match searchEntryInSegment s item offset with
    | some e => some e.2
    | none => scanSegments rest item offset

/-- `DB.get(item)`.  Mirrors the source line by line: memtable first (with
the tombstone check), then the empty-index early return, then the closest
indexed key `≤ item` — where an empty `irange` makes `next` raise
`StopIteration` — then the sparse-hit segment, then the slice
`_immutable_segments[-1:segment_index:-1]` (the segments strictly after the
sparse hit, newest first), each searched from the sparse hit's `offset`. -/
def DB.get (db : DB) (item : Key) : Except LookupError (Option Value) :=
  match sdLookup db.memTable.entries item with
  | some w =>
    match w with
    | none => .ok none
    | some v => .ok (some v)
  | none =>
    if db.sparseMemoryIndex.length = 0 then .ok none
    else
      match sdClosestLE db.sparseMemoryIndex item with
      | none => .error .stopIteration
      | some (_closestKey, kde) =>
        match db.immutableSegments[kde.segIdx]? with
        | none => .error .badLocator
        | some segment =>
          match searchEntryInSegment segment item kde.offset with
          | some e => .ok (some e.2)
          | none =>
            .ok (scanSegments ((db.immutableSegments.drop (kde.segIdx + 1)).reverse)
                  item kde.offset)

/-- `DB.__contains__`: the Bloom filter short-circuit, then `get`. -/
def DB.containsKey (db : DB) (item : Key) : Except LookupError Bool :=
  if db.bloomFilter.contains item then
    match db.get item with
    | .error e => .error e
    | .ok v => .ok v.isSome
  else .ok false

/-- How `DB.__delitem__` can fail: the key is absent (the source raises
`Exception(f"{key} does not exist ...")`), or the containment check itself
escapes with a lookup error. -/
inductive DelError where
  | notFound
  | lookup (e : LookupError)
deriving DecidableEq, Repr

/-- `DB.__delitem__`: requires `key in self`, then writes the tombstone into
the memtable and bumps `_entries_deleted`.  Nothing else is touched. -/
def DB.delItem (db : DB) (k : Key) : Except DelError DB :=
  match db.containsKey k with
  | .error e => .error (.lookup e)
  | .ok false => .error .notFound
  | .ok true =>
    .ok { db with memTable := db.memTable.set k TOMBSTONE
                  entriesDeleted := db.entriesDeleted + 1 }

/-! ## Flush, compaction and recovery -/

/-- The loop body of `DB._write_to_segment`: walk the memtable in key order,
skip tombstones, append each surviving record to the fresh segment (its
`add_entry` position is the current record count) and index every
`sparse_offset`-th appended record under the fresh segment's future list
position `segIdx`. -/
def flushWalk (sparseOffset segIdx : Nat) :
    List (Key × Option Value) → List (Key × Value) → Nat →
    List (Key × KeyDirEntry) → List (Key × Value) × List (Key × KeyDirEntry)
  | [], written, _count, idx => (written, idx)
  | (_k, none) :: rest, written, count, idx =>
    flushWalk sparseOffset segIdx rest written count idx
  | (k, some v) :: rest, written, count, idx =>
    let offset := written.length
    let idx' := if count % sparseOffset = 0 then sdInsert idx k ⟨offset, segIdx⟩ else idx
    flushWalk sparseOffset segIdx rest (written ++ [(k, v)]) (count + 1) idx'

/-- The per-segment loop of the index rebuild shared by the post-merge code
in `DB.__setitem__` and by `DB._scan_path_for_segments`: every
`sparse_offset`-th record of the global walk is indexed at its offset within
its segment. -/
def walkSeg (sparseOffset segIdx : Nat) :
    List (Key × Value) → Nat → Nat → List (Key × KeyDirEntry) →
    List (Key × KeyDirEntry) × Nat
  | [], _off, count, idx => (idx, count)
  | (k, _v) :: rest, off, count, idx =>
    let idx' := if count % sparseOffset = 0 then sdInsert idx k ⟨off, segIdx⟩ else idx
    walkSeg sparseOffset segIdx rest (off + 1) (count + 1) idx'

/-- The segment-list loop of the index rebuild. -/
def rebuildWalk (sparseOffset : Nat) :
    List Segment → Nat → Nat → List (Key × KeyDirEntry) → List (Key × KeyDirEntry)
  | [], _i, _count, idx => idx
  | s :: rest, i, count, idx =>
    let p := walkSeg sparseOffset i s.entries 0 count idx
    rebuildWalk sparseOffset rest (i + 1) p.2 p.1

/-- Clear-and-rebuild of the sparse index over a segment list, with the
globally running record counter. -/
def rebuildIndex (segs : List Segment) (sparseOffset : Nat) : List (Key × KeyDirEntry) :=
  rebuildWalk sparseOffset segs 0 0 []

/-- Split the merged stream into chunks, mirroring `merge_into`: a fresh
segment receives records until `count == segment_size`, then recursion
continues with the rest; a segment that receives no record is dropped.  With
`segment_size = 0` the `count == 0` test never fires after an increment, so
everything lands in one segment. -/
def chunksGo (n : Nat) : Nat → List (Key × Value) → List (List (Key × Value))
  | _, [] => []
  | 0, _ => []
  | fuel + 1, l => l.take n :: chunksGo n fuel (l.drop n)

/-- All chunks of size `n` (the last possibly shorter, none empty). -/
def chunksOf (n : Nat) (l : List (Key × Value)) : List (List (Key × Value)) :=
  if n = 0 then (if l.isEmpty then [] else [l])
  else chunksGo n l.length l

/-- Wrap the chunks into segments with consecutive creation timestamps
(`make_new_segment` is called once per chunk, in chunk order). -/
def tagChunks (ts0 : Nat) : List (List (Key × Value)) → List Segment
  | [] => []
  | c :: rest => ⟨c, ts0⟩ :: tagChunks (ts0 + 1) rest

/-- `DB.merge(*self._immutable_segments)` followed by the index rebuild of
`DB.__setitem__` lines 312–321: chain all segments, split into
`segment_size`-capped fresh segments that replace the list, clear the sparse
index and rebuild it by walking the new segments. -/
def DB.compact (db : DB) : DB :=
  let stream := chainSegments db.immutableSegments
  let merged := tagChunks db.nextTimestamp (chunksOf db.segmentSize stream)
  { db with immutableSegments := merged
            sparseMemoryIndex := rebuildIndex merged db.sparseOffset
            nextTimestamp := db.nextTimestamp + merged.length }

/-- `DB.__setitem__(key, value)`.  Adds the key to the Bloom filter; if the
memtable is at capacity it is flushed to a fresh segment (tombstones
dropped, every `sparse_offset`-th record indexed), the segment is appended,
compaction runs when the list has reached `merge_threshold`, the memtable is
cleared, `_entries_deleted` reset, and only then is the new pair written
into the (now empty) memtable; otherwise the pair goes straight into the
memtable. -/
def DB.setItem (db : DB) (k : Key) (v : Value) : DB :=
  let db0 := { db with bloomFilter := bloomAdd db.bloomFilter k }
  if db0.memTable.capacityReached then
    let p := flushWalk db0.sparseOffset db0.immutableSegments.length
      db0.memTable.entries [] 0 db0.sparseMemoryIndex
    let seg : Segment := ⟨p.1, db0.nextTimestamp⟩
    let db1 := { db0 with immutableSegments := db0.immutableSegments ++ [seg]
                          sparseMemoryIndex := p.2
                          nextTimestamp := db0.nextTimestamp + 1 }
    let db2 := if db1.mergeThreshold ≤ db1.immutableSegments.length then db1.compact else db1
    { db2 with memTable := (db2.memTable.clear).set k (some v)
               entriesDeleted := 0 }
  else { db0 with memTable := db0.memTable.set k (some v) }

/-- `DB._scan_path_for_segments(path)`: the directory listing, sorted by
file name (equivalently by embedded timestamp), becomes the segment list,
and the sparse index is rebuilt by the global walk.  The Bloom filter is not
touched by this code path. -/
def DB.scanPathForSegments (db : DB) (segs : List Segment) : DB :=
  { db with immutableSegments := segs
            sparseMemoryIndex := rebuildIndex segs db.sparseOffset }

/-! ## Concrete engine states used by the theorems below -/

/-- The engine after `DB(max_inmemory_size=1, merge_threshold=10)`,
`put("b","1")`, `put("c","2")`: the flush of `{"b"}` left the sparse index
holding only the key `"b"`. -/
def dbSmallIdx : DB := ((DB.new 1 100 500 10).setItem "b" "1").setItem "c" "2"

/-- The engine after `DB(max_inmemory_size=2, sparse_offset=2,
merge_threshold=10)` and the puts `a, z, b, c, d`: two flushed segments
`[a, z]` and `[b, c]`, sparse index `{a ↦ segment 0, b ↦ segment 1}`,
memtable `{d}`. -/
def dbStale : DB :=
  (((((DB.new 2 2 500 10).setItem "a" "va").setItem "z" "vz").setItem
    "b" "vb").setItem "c" "vc").setItem "d" "vd"

/-- `dbStale` after two more puts `e, f`: three segments
`[a, z]`, `[b, c]`, `[d, e]`, memtable `{f}` — a state on which a compaction
can be performed. -/
def dbPreCompact : DB := (dbStale.setItem "e" "ve").setItem "f" "vf"

/-- Recovery over the directory of spec scenario G: older segment
`[("k1","v1"), ("k1_1","v_1")]`, newer segment `[("k1","v1")]`, with
`sparse_offset = 2` (and otherwise default constructor arguments). -/
def dbWorstCase : DB :=
  (DB.new 1000 2 500 2).scanPathForSegments
    [⟨[("k1", "v1"), ("k1_1", "v_1")], 1⟩, ⟨[("k1", "v1")], 2⟩]

/-- Recovery (default constructor arguments) over a directory holding one
segment with the single record `("k1","v1")`. -/
def dbRecovered : DB :=
  (DB.new 1000 100 500 2).scanPathForSegments [⟨[("k1", "v1")], 5⟩]

/-- The engine after `DB(max_inmemory_size=1, merge_threshold=10)`,
`put("k1","v1")`, `put("k2","v2")`: `k1` lives only in the flushed segment,
and the memtable `{k2}` is at capacity. -/
def dbFullDisk : DB := ((DB.new 1 100 500 10).setItem "k1" "v1").setItem "k2" "v2"

/-! ## C1 -/

/-- C1, failing input: in `dbStale` the most recent (only) write to `"z"` is
`put("z","vz")` and no delete ever happened, yet `get("z")` returns `None`:
the closest indexed key is `"b"`, whose locator points at the newest
segment, so the fallback slice `_immutable_segments[-1:1:-1]` is empty and
the older segment holding `"z"` is never searched. -/
theorem c1_get_misses_most_recent_put :
    dbStale.get "z" = .ok none ∧ dbStale.get "d" = .ok (some "vd") := by
  constructor <;> rfl

/-! ## C2 -/

/-- C2, failing input: compacting `dbPreCompact` changes the set of keys
observable through `get`.  Before the compaction `get("z")` returns `None`
(the fallback bug of C1); after merging the three segments into one and
rebuilding the sparse index, `get("z")` returns `"vz"`. -/
theorem c2_compaction_changes_observable_set :
    dbPreCompact.get "z" = .ok none ∧
    (dbPreCompact.compact).get "z" = .ok (some "vz") := by
  constructor <;> rfl

/-! ## C3 -/

/-- C3, failing input: spec scenario G.  The sparse index maps `"k1"` to the
newer segment (index 1), `search` there misses, and the fallback slice
`_immutable_segments[-1:1:-1]` is empty, so the older segment holding
`("k1_1","v_1")` is never scanned and `get("k1_1")` returns `None` instead
of `"v_1"` — the code fails its own `test_worst_case_get`. -/
theorem c3_fallback_skips_older_segments :
    dbWorstCase.sparseMemoryIndex = [("k1", ⟨0, 1⟩)] ∧
    dbWorstCase.get "k1_1" = .ok none := by
  constructor <;> rfl

/-! ## C4 -/

/-- C4, failing input: `_scan_path_for_segments` rebuilds the segment list
and the sparse index but never touches `_bloom_filter`, so immediately after
recovery the filter is empty while `"k1"` has the live value `"v1"`; the
implication `not in filter ⇒ not in store` fails and `contains("k1")`
answers `False` although the most recent operation on `"k1"` is a non-delete
put. -/
theorem c4_recovery_leaves_bloom_empty :
    dbRecovered.bloomFilter = [] ∧
    dbRecovered.get "k1" = .ok (some "v1") ∧
    dbRecovered.containsKey "k1" = .ok false := by
  exact ⟨rfl, rfl, rfl⟩

/-! ## C5 -/

/-- C5, failing input: in `dbSmallIdx` the sparse index is non-empty but its
only key `"b"` is strictly greater than the query `"a"`, so
`next(self._sparse_memory_index.irange(maximum="a", reverse=True))` is
called on an empty iterator and `get` escapes with `StopIteration` instead
of returning `None`. -/
theorem c5_get_raises_stop_iteration :
    dbSmallIdx.sparseMemoryIndex = [("b", ⟨0, 0⟩)] ∧
    dbSmallIdx.get "a" = .error .stopIteration := by
  constructor <;> rfl

/-! ## C6 -/

/-- C6, counterexample: with `max_inmemory_size = 1` the memtable `{k1}` is
at capacity and `k1` is already present, yet `put("k1","v2")` triggers a
flush — the segment list grows from 0 to 1 — because `__setitem__` tests
only `capacity_reached()`, never whether the key is already in the
memtable. -/
theorem c6_put_flushes_despite_existing_key :
    ((DB.new 1 100 500 10).setItem "k1" "v1").memTable.capacityReached = true ∧
    sdLookup ((DB.new 1 100 500 10).setItem "k1" "v1").memTable.entries "k1"
      = some (some "v1") ∧
    ((DB.new 1 100 500 10).setItem "k1" "v1").immutableSegments.length = 0 ∧
    (((DB.new 1 100 500 10).setItem "k1" "v1").setItem "k1" "v2").immutableSegments.length
      = 1 := by
  exact ⟨rfl, rfl, rfl, rfl⟩

/-- C6, amended: whenever the memtable is at capacity, `put(key, value)`
flushes unconditionally — whether or not `key` is already present — after
which the memtable holds exactly the new pair and `_entries_deleted` is
reset to 0. -/
theorem c6_put_at_capacity_always_flushes (db : DB) (k : Key) (v : Value)
    (h : db.memTable.capacityReached = true) :
    (db.setItem k v).memTable.entries = [(k, some v)] ∧
    (db.setItem k v).entriesDeleted = 0 := by
  simp only [DB.setItem, MemTable.set, MemTable.clear, h, if_true]
  constructor <;> trivial

/-- C6, witness for the amended theorem at the state of the
counterexample. -/
theorem c6_amended_witness :
    ((DB.new 1 100 500 10).setItem "k1" "v1").memTable.capacityReached = true ∧
    ((((DB.new 1 100 500 10).setItem "k1" "v1").setItem "k1" "v2").memTable.entries
        = [("k1", some "v2")] ∧
      (((DB.new 1 100 500 10).setItem "k1" "v1").setItem "k1" "v2").entriesDeleted = 0) :=
  ⟨rfl, c6_put_at_capacity_always_flushes ((DB.new 1 100 500 10).setItem "k1" "v1")
    "k1" "v2" rfl⟩

/-! ## C7 -/

/-- C7, counterexample: in `dbFullDisk` the memtable `{k2}` is at its
capacity of 1 and `k1` lives only in a flushed segment; `delete("k1")`
succeeds and writes a tombstone into the memtable, growing it to 2 entries —
the `max_inmemory_size` bound is not preserved by delete. -/
theorem c7_delete_exceeds_memtable_bound :
    dbFullDisk.maxInmemorySize = 1 ∧
    dbFullDisk.memTable.entries.length = 1 ∧
    (dbFullDisk.delItem "k1").map (fun d => d.memTable.entries.length) = .ok 2 := by
  exact ⟨rfl, rfl, rfl⟩

/-- Inserting into a sorted association list adds at most one entry. -/
theorem sdInsert_length_le {β : Type} (l : List (Key × β)) (k : Key) (v : β) :
    (sdInsert l k v).length ≤ l.length + 1 := by
  induction l with
  | nil => simp [sdInsert]
  | cons hd tl ih =>
    simp only [sdInsert]
    split
    · simp
    · split
      · simp
      · simpa using Nat.succ_le_succ ih

/-- C7, amended: `put` does preserve the memtable bound (for a positive
capacity): at capacity it flushes and leaves a single entry, below capacity
the insert can add at most one entry; `get` and `contains` never mutate the
engine; `delete`, however, can exceed the bound as the counterexample
shows. -/
theorem c7_put_preserves_memtable_bound (db : DB) (k : Key) (v : Value)
    (hpos : 1 ≤ db.memTable.maxSize)
    (hinv : db.memTable.entries.length ≤ db.memTable.maxSize) :
    (db.setItem k v).memTable.entries.length ≤ (db.setItem k v).memTable.maxSize := by
  simp only [DB.setItem, MemTable.set, MemTable.clear]
  by_cases h : db.memTable.capacityReached = true
  · simp only [h, if_true]
    split <;> simpa [sdInsert, DB.compact] using hpos
  · simp only [Bool.not_eq_true] at h
    simp only [h, Bool.false_eq_true, if_false]
    have hlt : db.memTable.entries.length < db.memTable.maxSize := by
      simp only [MemTable.capacityReached, decide_eq_false_iff_not, Nat.not_le] at h
      exact h
    exact le_trans (sdInsert_length_le _ _ _) hlt

/-- C7, witness for the amended theorem: a put on a full memtable of
capacity 1 keeps the bound. -/
theorem c7_amended_witness :
    (1 ≤ dbFullDisk.memTable.maxSize ∧
      dbFullDisk.memTable.entries.length ≤ dbFullDisk.memTable.maxSize) ∧
    (dbFullDisk.setItem "k3" "v3").memTable.entries.length ≤
      (dbFullDisk.setItem "k3" "v3").memTable.maxSize :=
  ⟨⟨by decide, by decide⟩,
    c7_put_preserves_memtable_bound dbFullDisk "k3" "v3" (by decide) (by decide)⟩

/-! ## C8 -/

/-- C8, failing input: two `add_entry` calls with the same key `"a"` in one
open session.  The source checks `previous_entry_key > key`, not `>=`, so
the second call succeeds and the session writes a duplicate key — the claim
says it must fail with `UnsortedWrite` whenever `key ≤ previous key`, which
the class docstring ("no duplicates") confirms as intent. -/
theorem c8_add_entry_accepts_duplicate_key :
    (addEntry ⟨[], none⟩ "a" "1").bind (fun p => addEntry p.2 "a" "2") =
      .ok (1, ⟨[("a", "1"), ("a", "2")], some "a"⟩) := by
  exact rfl

/-! ## C10 -/

/-- C10: a successful `delete(key)` is pure bookkeeping: it writes the
tombstone for `key` into the memtable (inserting a fresh entry when the key
lived only on disk) and bumps `_entries_deleted`; the segment list, the
sparse index, the Bloom filter and every configuration field are untouched —
no flush and no compaction happen, and nothing stops the memtable from
growing past its declared capacity. -/
theorem c10_delete_only_writes_tombstone (db : DB) (k : Key) (db' : DB)
    (h : db.delItem k = .ok db') :
    db'.memTable = db.memTable.set k TOMBSTONE ∧
    db'.entriesDeleted = db.entriesDeleted + 1 ∧
    db'.immutableSegments = db.immutableSegments ∧
    db'.sparseMemoryIndex = db.sparseMemoryIndex ∧
    db'.bloomFilter = db.bloomFilter ∧
    db'.maxInmemorySize = db.maxInmemorySize ∧
    db'.sparseOffset = db.sparseOffset ∧
    db'.segmentSize = db.segmentSize ∧
    db'.mergeThreshold = db.mergeThreshold ∧
    db'.nextTimestamp = db.nextTimestamp := by
  unfold DB.delItem at h
  split at h
  · cases h
  · cases h
  · injection h with h
    subst h
    exact ⟨rfl, rfl, rfl, rfl, rfl, rfl, rfl, rfl, rfl, rfl⟩

/-- The state produced by deleting `"k1"` (a disk-only key) from
`dbFullDisk`. -/
def dbFullDiskDel : DB :=
  { dbFullDisk with memTable := dbFullDisk.memTable.set "k1" TOMBSTONE
                    entriesDeleted := dbFullDisk.entriesDeleted + 1 }

/-- C10, witness: the delete of the disk-only key `"k1"` from `dbFullDisk`
succeeds and, by the frame theorem, changes nothing but the memtable and the
deletion counter — while the memtable grows to 2 entries against a declared
capacity of 1. -/
theorem c10_witness :
    dbFullDisk.delItem "k1" = .ok dbFullDiskDel ∧
    (dbFullDiskDel.immutableSegments = dbFullDisk.immutableSegments ∧
      dbFullDiskDel.sparseMemoryIndex = dbFullDisk.sparseMemoryIndex ∧
      dbFullDiskDel.bloomFilter = dbFullDisk.bloomFilter) ∧
    dbFullDiskDel.memTable.entries.length = 2 :=
  ⟨rfl,
    ⟨(c10_delete_only_writes_tombstone dbFullDisk "k1" dbFullDiskDel rfl).2.2.1,
      (c10_delete_only_writes_tombstone dbFullDisk "k1" dbFullDiskDel rfl).2.2.2.1,
      (c10_delete_only_writes_tombstone dbFullDisk "k1" dbFullDiskDel rfl).2.2.2.2.1⟩,
    by decide⟩

/-! ## Order lemmas for the key comparison -/

theorem strLtL_irrefl (l : List Char) : strLtL l l = false := by
  induction l with
  | nil => rfl
  | cons a as ih => simp [strLtL, ih]

theorem strLtL_trans {a b c : List Char} (hab : strLtL a b = true)
    (hbc : strLtL b c = true) : strLtL a c = true := by
  induction a generalizing b c with
  | nil =>
    cases b with
    | nil => simp [strLtL] at hab
    | cons y ys =>
      cases c with
      | nil => simp [strLtL] at hbc
      | cons z zs => rfl
  | cons x xs ih =>
    cases b with
    | nil => simp [strLtL] at hab
    | cons y ys =>
      cases c with
      | nil => simp [strLtL] at hbc
      | cons z zs =>
        simp only [strLtL] at hab hbc ⊢
        split_ifs at hab hbc ⊢ <;> first
          | rfl
          | omega
          | exact ih hab hbc
          | (exact absurd hab (by simp))
          | (exact absurd hbc (by simp))

theorem strLtL_asymm {a b : List Char} (h : strLtL a b = true) : strLtL b a = false := by
  induction a generalizing b with
  | nil =>
    cases b with
    | nil => simp [strLtL] at h
    | cons y ys => rfl
  | cons x xs ih =>
    cases b with
    | nil => simp [strLtL] at h
    | cons y ys =>
      simp only [strLtL] at h ⊢
      split_ifs at h ⊢ <;> first
        | rfl
        | omega
        | exact ih h
        | (exact absurd h (by simp))

theorem strLtL_eq_of_not {a b : List Char} (h1 : strLtL a b = false)
    (h2 : strLtL b a = false) : a = b := by
  induction a generalizing b with
  | nil =>
    cases b with
    | nil => rfl
    | cons y ys => simp [strLtL] at h1
  | cons x xs ih =>
    cases b with
    | nil => simp [strLtL] at h2
    | cons y ys =>
      simp only [strLtL] at h1 h2
      by_cases hxy : x.toNat < y.toNat
      · simp [hxy] at h1
      · by_cases hyx : y.toNat < x.toNat
        · simp [hyx] at h2
        · simp only [hxy, hyx, if_false] at h1 h2
          have hn : x.toNat = y.toNat := by omega
          have hc : x = y := Char.ext (UInt32.ext hn)
          rw [hc, ih h1 h2]

theorem strLt_irrefl (a : Key) : strLt a a = false := strLtL_irrefl _

theorem strLt_trans {a b c : Key} (hab : strLt a b = true) (hbc : strLt b c = true) :
    strLt a c = true := strLtL_trans hab hbc

theorem strLt_asymm {a b : Key} (h : strLt a b = true) : strLt b a = false :=
  strLtL_asymm h

theorem strLt_eq_of_not {a b : Key} (h1 : strLt a b = false) (h2 : strLt b a = false) :
    a = b := by
  have h := strLtL_eq_of_not h1 h2
  cases a; cases b; simp only at h; rw [h]

theorem strLt_ne {a b : Key} (h : strLt a b = true) : a ≠ b := by
  intro hab
  rw [hab, strLt_irrefl] at h
  cases h

theorem strLt_of_strLe_ne {a b : Key} (h1 : strLe a b = true) (h2 : a ≠ b) :
    strLt a b = true := by
  unfold strLe at h1
  rcases hab : strLt a b with _ | _
  · exact absurd (strLt_eq_of_not hab (by simpa using h1)) h2
  · rfl

/-! ## Order lemmas for the heap order of the merge -/

theorem teLE_trans {a b c : TEntry} (hab : teLE a b) (hbc : teLE b c) : teLE a c := by
  rcases hab with h1 | ⟨h1, h1t⟩ <;> rcases hbc with h2 | ⟨h2, h2t⟩
  · exact Or.inl (strLt_trans h1 h2)
  · exact Or.inl (h2 ▸ h1)
  · exact Or.inl (h1 ▸ h2)
  · exact Or.inr ⟨h1.trans h2, Nat.le_trans h2t h1t⟩

theorem teLE_total (a b : TEntry) : teLE a b ∨ teLE b a := by
  rcases hab : strLt a.1.1 b.1.1 with _ | _
  · rcases hba : strLt b.1.1 a.1.1 with _ | _
    · have he : a.1.1 = b.1.1 := strLt_eq_of_not hab hba
      rcases Nat.le_total b.2 a.2 with h | h
      · exact Or.inl (Or.inr ⟨he, h⟩)
      · exact Or.inr (Or.inr ⟨he.symm, h⟩)
    · exact Or.inr (Or.inl hba)
  · exact Or.inl (Or.inl hab)

theorem teLE_of_not {a b : TEntry} (h : ¬ teLE a b) : teLE b a :=
  (teLE_total a b).resolve_left h

/-! ## The merge invariants -/

/-- The tagged records of one segment. -/
def Segment.tagged (s : Segment) : List TEntry :=
  s.entries.map (fun e => (e, s.timestamp))

/-- All tagged records of a segment list, in list order. -/
def taggedEntries (segs : List Segment) : List TEntry :=
  (segs.map Segment.tagged).join

/-- A segment whose records are strictly key-sorted (the documented segment
invariant). -/
def sortedSeg (s : Segment) : Prop :=
  s.entries.Pairwise (fun a b => strLt a.1 b.1 = true)

instance sortedSeg.dec (s : Segment) : Decidable (sortedSeg s) :=
  inferInstanceAs (Decidable (List.Pairwise _ _))

theorem taggedEntries_nil : taggedEntries [] = [] := rfl

theorem taggedEntries_cons (s : Segment) (rest : List Segment) :
    taggedEntries (s :: rest) = s.tagged ++ taggedEntries rest := by
  simp [taggedEntries]


theorem taggedEntries_length (segs : List Segment) :
    (taggedEntries segs).length = totalSize segs := by
  induction segs with
  | nil => rfl
  | cons s rest ih =>
    rw [taggedEntries_cons, List.length_append, ih]
    simp [Segment.tagged, totalSize]

theorem mem_tagged {x : TEntry} {s : Segment} :
    x ∈ s.tagged ↔ ∃ e ∈ s.entries, x = (e, s.timestamp) := by
  simp [Segment.tagged, eq_comm]

/-! Unfolding equations for `popMin`, one per branch of its definition. -/

theorem popMin_cons_nil {s : Segment} {rest : List Segment} (he : s.entries = []) :
    popMin (s :: rest) = (popMin rest).map (fun p => (p.1, s :: p.2)) := by
  simp [popMin, he]

theorem popMin_cons_cons_none {s : Segment} {rest : List Segment} {e : Key × Value}
    {tail : List (Key × Value)} (he : s.entries = e :: tail) (hr : popMin rest = none) :
    popMin (s :: rest) =
      some ((e, s.timestamp), { entries := tail, timestamp := s.timestamp } :: rest) := by
  simp [popMin, he, hr]

theorem popMin_cons_cons_some_le {s : Segment} {rest rest' : List Segment}
    {e : Key × Value} {tail : List (Key × Value)} {te' : TEntry}
    (he : s.entries = e :: tail) (hr : popMin rest = some (te', rest'))
    (hle : teLE (e, s.timestamp) te') :
    popMin (s :: rest) =
      some ((e, s.timestamp), { entries := tail, timestamp := s.timestamp } :: rest) := by
  simp [popMin, he, hr, hle]

theorem popMin_cons_cons_some_gt {s : Segment} {rest rest' : List Segment}
    {e : Key × Value} {tail : List (Key × Value)} {te' : TEntry}
    (he : s.entries = e :: tail) (hr : popMin rest = some (te', rest'))
    (hle : ¬ teLE (e, s.timestamp) te') :
    popMin (s :: rest) = some (te', s :: rest') := by
  simp only [popMin, he, hr]
  rw [if_neg hle]

theorem popMin_none {segs : List Segment} (h : popMin segs = none) :
    taggedEntries segs = [] := by
  induction segs with
  | nil => rfl
  | cons s rest ih =>
    rw [taggedEntries_cons]
    cases he : s.entries with
    | nil =>
      rw [popMin_cons_nil he] at h
      cases hr : popMin rest with
      | none => simp [Segment.tagged, he, ih hr]
      | some p => rw [hr] at h; simp at h
    | cons e tail =>
      cases hr : popMin rest with
      | none => rw [popMin_cons_cons_none he hr] at h; cases h
      | some p =>
        rcases p with ⟨te', rest'⟩
        by_cases hle : teLE (e, s.timestamp) te'
        · rw [popMin_cons_cons_some_le he hr hle] at h; cases h
        · rw [popMin_cons_cons_some_gt he hr hle] at h; cases h

theorem popMin_perm {segs segs' : List Segment} {te : TEntry}
    (h : popMin segs = some (te, segs')) :
    (taggedEntries segs).Perm (te :: taggedEntries segs') := by
  induction segs generalizing te segs' with
  | nil => simp [popMin] at h
  | cons s rest ih =>
    cases he : s.entries with
    | nil =>
      rw [popMin_cons_nil he] at h
      cases hr : popMin rest with
      | none => rw [hr] at h; cases h
      | some p =>
        rcases p with ⟨te0, rs⟩
        rw [hr] at h
        injection h with h
        injection h with h1 h2
        subst h1; subst h2
        rw [taggedEntries_cons, taggedEntries_cons]
        have hst : s.tagged = [] := by simp [Segment.tagged, he]
        rw [hst]
        simpa using ih hr
    | cons e tail =>
      cases hr : popMin rest with
      | none =>
        rw [popMin_cons_cons_none he hr] at h
        injection h with h
        injection h with h1 h2
        subst h1; subst h2
        rw [taggedEntries_cons, taggedEntries_cons]
        simp [Segment.tagged, he, popMin_none hr]
      | some p =>
        rcases p with ⟨te', rest'⟩
        by_cases hle : teLE (e, s.timestamp) te'
        · rw [popMin_cons_cons_some_le he hr hle] at h
          injection h with h
          injection h with h1 h2
          subst h1; subst h2
          rw [taggedEntries_cons, taggedEntries_cons]
          simp [Segment.tagged, he]
        · rw [popMin_cons_cons_some_gt he hr hle] at h
          injection h with h
          injection h with h1 h2
          subst h1; subst h2
          rw [taggedEntries_cons, taggedEntries_cons]
          exact ((ih hr).append_left s.tagged).trans List.perm_middle

theorem popMin_size {segs segs' : List Segment} {te : TEntry}
    (h : popMin segs = some (te, segs')) :
    totalSize segs = totalSize segs' + 1 := by
  have hp := (popMin_perm h).length_eq
  rw [taggedEntries_length, List.length_cons, taggedEntries_length] at hp
  omega

theorem strLe_refl (a : Key) : strLe a a = true := by
  unfold strLe
  rw [strLt_irrefl]
  rfl

theorem strLe_of_strLt {a b : Key} (h : strLt a b = true) : strLe a b = true := by
  unfold strLe
  rw [strLt_asymm h]
  rfl

theorem teLE_key_le {a b : TEntry} (h : teLE a b) : strLe a.1.1 b.1.1 = true := by
  rcases h with h | ⟨h, _⟩
  · exact strLe_of_strLt h
  · rw [h]; exact strLe_refl _

theorem popMin_min {segs segs' : List Segment} {te : TEntry}
    (hs : ∀ s ∈ segs, sortedSeg s) (h : popMin segs = some (te, segs')) :
    ∀ x ∈ taggedEntries segs', teLE te x := by
  induction segs generalizing te segs' with
  | nil => simp [popMin] at h
  | cons s rest ih =>
    have hrest : ∀ u ∈ rest, sortedSeg u := fun u hm => hs u (List.mem_cons_of_mem _ hm)
    cases he : s.entries with
    | nil =>
      rw [popMin_cons_nil he] at h
      cases hr : popMin rest with
      | none => rw [hr] at h; cases h
      | some p =>
        rcases p with ⟨te0, rs⟩
        rw [hr] at h
        injection h with h
        injection h with h1 h2
        subst h1; subst h2
        intro x hx
        rw [taggedEntries_cons] at hx
        have hst : s.tagged = [] := by simp [Segment.tagged, he]
        rw [hst, List.nil_append] at hx
        exact ih hrest hr x hx
    | cons e tail =>
      have hsort : s.entries.Pairwise (fun a b => strLt a.1 b.1 = true) :=
        hs s (List.mem_cons_self _ _)
      rw [he] at hsort
      have hhead : ∀ y ∈ tail, strLt e.1 y.1 = true := (List.pairwise_cons.mp hsort).1
      have htail : ∀ x ∈ Segment.tagged { entries := tail, timestamp := s.timestamp },
          teLE (e, s.timestamp) x := by
        intro x hx
        rcases mem_tagged.mp hx with ⟨y, hy, rfl⟩
        exact Or.inl (hhead y hy)
      cases hr : popMin rest with
      | none =>
        rw [popMin_cons_cons_none he hr] at h
        injection h with h
        injection h with h1 h2
        subst h1; subst h2
        intro x hx
        rw [taggedEntries_cons] at hx
        rcases List.mem_append.mp hx with hx | hx
        · exact htail x hx
        · rw [popMin_none hr] at hx; cases hx
      | some p =>
        rcases p with ⟨te', rest'⟩
        by_cases hle : teLE (e, s.timestamp) te'
        · rw [popMin_cons_cons_some_le he hr hle] at h
          injection h with h
          injection h with h1 h2
          subst h1; subst h2
          intro x hx
          rw [taggedEntries_cons] at hx
          rcases List.mem_append.mp hx with hx | hx
          · exact htail x hx
          · have hx' := (popMin_perm hr).mem_iff.mp hx
            rcases List.mem_cons.mp hx' with rfl | hx''
            · exact hle
            · exact teLE_trans hle (ih hrest hr x hx'')
        · rw [popMin_cons_cons_some_gt he hr hle] at h
          injection h with h
          injection h with h1 h2
          subst h1; subst h2
          intro x hx
          rw [taggedEntries_cons] at hx
          have hge : teLE te' (e, s.timestamp) := teLE_of_not hle
          rcases List.mem_append.mp hx with hx | hx
          · rcases mem_tagged.mp hx with ⟨y, hy, rfl⟩
            rw [he] at hy
            rcases List.mem_cons.mp hy with rfl | hy
            · exact hge
            · exact teLE_trans hge (Or.inl (hhead y hy))
          · exact ih hrest hr x hx

theorem popMin_sorted {segs segs' : List Segment} {te : TEntry}
    (hs : ∀ s ∈ segs, sortedSeg s) (h : popMin segs = some (te, segs')) :
    ∀ u ∈ segs', sortedSeg u := by
  induction segs generalizing te segs' with
  | nil => simp [popMin] at h
  | cons s rest ih =>
    have hrest : ∀ u ∈ rest, sortedSeg u := fun u hm => hs u (List.mem_cons_of_mem _ hm)
    cases he : s.entries with
    | nil =>
      rw [popMin_cons_nil he] at h
      cases hr : popMin rest with
      | none => rw [hr] at h; cases h
      | some p =>
        rcases p with ⟨te0, rs⟩
        rw [hr] at h
        injection h with h
        injection h with h1 h2
        subst h1; subst h2
        intro u hu
        rcases List.mem_cons.mp hu with rfl | hu
        · exact hs u (List.mem_cons_self _ _)
        · exact ih hrest hr u hu
    | cons e tail =>
      have hsort : s.entries.Pairwise (fun a b => strLt a.1 b.1 = true) :=
        hs s (List.mem_cons_self _ _)
      rw [he] at hsort
      have htailsorted : sortedSeg { entries := tail, timestamp := s.timestamp } :=
        (List.pairwise_cons.mp hsort).2
      cases hr : popMin rest with
      | none =>
        rw [popMin_cons_cons_none he hr] at h
        injection h with h
        injection h with h1 h2
        subst h1; subst h2
        intro u hu
        rcases List.mem_cons.mp hu with rfl | hu
        · exact htailsorted
        · exact hrest u hu
      | some p =>
        rcases p with ⟨te', rest'⟩
        by_cases hle : teLE (e, s.timestamp) te'
        · rw [popMin_cons_cons_some_le he hr hle] at h
          injection h with h
          injection h with h1 h2
          subst h1; subst h2
          intro u hu
          rcases List.mem_cons.mp hu with rfl | hu
          · exact htailsorted
          · exact hrest u hu
        · rw [popMin_cons_cons_some_gt he hr hle] at h
          injection h with h
          injection h with h1 h2
          subst h1; subst h2
          intro u hu
          rcases List.mem_cons.mp hu with rfl | hu
          · exact hs u (List.mem_cons_self _ _)
          · exact ih hrest hr u hu

/-- The raw popped stream of the merge loop, before deduplication: the heap
pops in `(key, -timestamp)` order until all streams are exhausted. -/
def popGo (fuel : Nat) (segs : List Segment) : List TEntry :=
  match fuel with
  | 0 => []
  | fuel + 1 =>
    match popMin segs with
    | none => []
    | some (te, segs') => te :: popGo fuel segs'

theorem popGo_perm {fuel : Nat} {segs : List Segment} (hf : totalSize segs ≤ fuel) :
    (popGo fuel segs).Perm (taggedEntries segs) := by
  induction fuel generalizing segs with
  | zero =>
    have h0 : (taggedEntries segs).length = 0 := by
      rw [taggedEntries_length]; omega
    simp [popGo, List.length_eq_zero.mp h0]
  | succ fuel ih =>
    cases hp : popMin segs with
    | none => simp [popGo, hp, popMin_none hp]
    | some p =>
      rcases p with ⟨te, segs'⟩
      have hsz := popMin_size hp
      have hle : totalSize segs' ≤ fuel := by omega
      have hstep : popGo (fuel + 1) segs = te :: popGo fuel segs' := by
        simp [popGo, hp]
      rw [hstep]
      exact ((ih hle).cons te).trans (popMin_perm hp).symm

theorem popGo_sorted {fuel : Nat} {segs : List Segment} (hf : totalSize segs ≤ fuel)
    (hs : ∀ s ∈ segs, sortedSeg s) :
    (popGo fuel segs).Pairwise teLE := by
  induction fuel generalizing segs with
  | zero => simp [popGo]
  | succ fuel ih =>
    cases hp : popMin segs with
    | none => simp [popGo, hp]
    | some p =>
      rcases p with ⟨te, segs'⟩
      have hsz := popMin_size hp
      have hle : totalSize segs' ≤ fuel := by omega
      have hstep : popGo (fuel + 1) segs = te :: popGo fuel segs' := by
        simp [popGo, hp]
      rw [hstep]
      refine List.pairwise_cons.mpr ⟨?_, ih hle (popMin_sorted hs hp)⟩
      intro x hx
      exact popMin_min hs hp x ((popGo_perm hle).subset hx)

/-- The deduplication pass of `chain_segments` in isolation: drop every
record whose key equals the previously yielded key. -/
def dedupRun : Option Key → List TEntry → List (Key × Value)
  | _, [] => []
  | prev, te :: rest =>
    if prev = some te.1.1 then dedupRun prev rest
    else te.1 :: dedupRun (some te.1.1) rest

theorem chainGo_eq_dedup (fuel : Nat) (prev : Option Key) (segs : List Segment) :
    chainGo fuel prev segs = dedupRun prev (popGo fuel segs) := by
  induction fuel generalizing prev segs with
  | zero => simp [chainGo, popGo, dedupRun]
  | succ fuel ih =>
    cases hp : popMin segs with
    | none => simp [chainGo, popGo, hp, dedupRun]
    | some p =>
      rcases p with ⟨te, segs'⟩
      have hc : chainGo (fuel + 1) prev segs =
          if prev = some te.1.1 then chainGo fuel prev segs'
          else te.1 :: chainGo fuel (some te.1.1) segs' := by
        simp [chainGo, hp]
      have hg : popGo (fuel + 1) segs = te :: popGo fuel segs' := by
        simp [popGo, hp]
      rw [hc, hg]
      by_cases hprev : prev = some te.1.1
      · simp only [dedupRun, if_pos hprev, ih]
      · simp only [dedupRun, if_neg hprev, ih]

theorem dedupRun_keys_gt {l : List TEntry} {kappa : Key}
    (hlb : ∀ y ∈ l, strLe kappa y.1.1 = true) (hsort : l.Pairwise teLE) :
    ∀ x ∈ dedupRun (some kappa) l, strLt kappa x.1 = true := by
  induction l generalizing kappa with
  | nil => simp [dedupRun]
  | cons te rest ih =>
    have hlbrest : ∀ y ∈ rest, strLe kappa y.1.1 = true :=
      fun y hy => hlb y (List.mem_cons_of_mem _ hy)
    have hheadle : ∀ y ∈ rest, strLe te.1.1 y.1.1 = true :=
      fun y hy => teLE_key_le ((List.pairwise_cons.mp hsort).1 y hy)
    by_cases hk : (some kappa : Option Key) = some te.1.1
    · simp only [dedupRun, if_pos hk]
      exact ih hlbrest (List.pairwise_cons.mp hsort).2
    · simp only [dedupRun, if_neg hk]
      have hne : kappa ≠ te.1.1 := fun hh => hk (congrArg some hh)
      have hlt : strLt kappa te.1.1 = true :=
        strLt_of_strLe_ne (hlb te (List.mem_cons_self _ _)) hne
      intro x hx
      rcases List.mem_cons.mp hx with rfl | hx
      · exact hlt
      · exact strLt_trans hlt (ih hheadle (List.pairwise_cons.mp hsort).2 x hx)

theorem dedupRun_sorted {l : List TEntry} (hsort : l.Pairwise teLE) (prev : Option Key) :
    (dedupRun prev l).Pairwise (fun a b => strLt a.1 b.1 = true) := by
  induction l generalizing prev with
  | nil => simp [dedupRun]
  | cons te rest ih =>
    have hheadle : ∀ y ∈ rest, strLe te.1.1 y.1.1 = true :=
      fun y hy => teLE_key_le ((List.pairwise_cons.mp hsort).1 y hy)
    by_cases hk : prev = some te.1.1
    · simp only [dedupRun, if_pos hk]
      exact ih (List.pairwise_cons.mp hsort).2 prev
    · simp only [dedupRun, if_neg hk]
      refine List.pairwise_cons.mpr ⟨?_, ih (List.pairwise_cons.mp hsort).2 _⟩
      intro x hx
      exact dedupRun_keys_gt hheadle (List.pairwise_cons.mp hsort).2 x hx

theorem maxcond_cons_ne {k0 : Key} {v0 : Value} {t0 : Nat} {rest : List TEntry}
    {k : Key} {v : Value} (hne : k ≠ k0) :
    (∃ t, ((k, v), t) ∈ (((k0, v0), t0) :: rest) ∧
        ∀ w t', ((k, w), t') ∈ (((k0, v0), t0) :: rest) → t' ≤ t) ↔
      ∃ t, ((k, v), t) ∈ rest ∧ ∀ w t', ((k, w), t') ∈ rest → t' ≤ t := by
  constructor
  · rintro ⟨t, hmem, hmax⟩
    rcases List.mem_cons.mp hmem with heq | hmem
    · exfalso
      apply hne
      injection heq with h1 _
      injection h1 with hk _
    · exact ⟨t, hmem, fun w t' hw => hmax w t' (List.mem_cons_of_mem _ hw)⟩
  · rintro ⟨t, hmem, hmax⟩
    refine ⟨t, List.mem_cons_of_mem _ hmem, ?_⟩
    intro w t' hw
    rcases List.mem_cons.mp hw with heq | hw
    · exfalso
      apply hne
      injection heq with h1 _
      injection h1 with hk _
    · exact hmax w t' hw

theorem dedupRun_mem_iff {l : List TEntry} (hsort : l.Pairwise teLE)
    (huniq : ∀ a ∈ l, ∀ b ∈ l, a.1.1 = b.1.1 → a.2 = b.2 → a = b)
    (prev : Option Key)
    (hlb : ∀ y ∈ l, ∀ kappa, prev = some kappa → strLe kappa y.1.1 = true)
    (k : Key) (v : Value) :
    (k, v) ∈ dedupRun prev l ↔
      prev ≠ some k ∧
        ∃ t, ((k, v), t) ∈ l ∧ ∀ w t', ((k, w), t') ∈ l → t' ≤ t := by
  induction l generalizing prev with
  | nil => simp [dedupRun]
  | cons te rest ih =>
    rcases te with ⟨⟨k0, v0⟩, t0⟩
    have hhead := (List.pairwise_cons.mp hsort).1
    have htailsorted := (List.pairwise_cons.mp hsort).2
    have hheadle : ∀ y ∈ rest, strLe k0 y.1.1 = true :=
      fun y hy => teLE_key_le (hhead y hy)
    have huniqrest : ∀ a ∈ rest, ∀ b ∈ rest, a.1.1 = b.1.1 → a.2 = b.2 → a = b :=
      fun a ha b hb => huniq a (List.mem_cons_of_mem _ ha) b (List.mem_cons_of_mem _ hb)
    by_cases hk : prev = some k0
    · have hstep : dedupRun prev (((k0, v0), t0) :: rest) = dedupRun prev rest := by
        simp [dedupRun, hk]
      rw [hstep]
      have hlbrest : ∀ y ∈ rest, ∀ kappa, prev = some kappa → strLe kappa y.1.1 = true := by
        intro y hy kappa hkap
        rw [hk] at hkap
        rw [(Option.some.inj hkap).symm]
        exact hheadle y hy
      rw [ih htailsorted huniqrest prev hlbrest]
      by_cases hkk : k = k0
      · subst hkk
        constructor
        · rintro ⟨hne, _⟩; exact absurd hk hne
        · rintro ⟨hne, _⟩; exact absurd hk hne
      · rw [maxcond_cons_ne hkk]
    · have hstep : dedupRun prev (((k0, v0), t0) :: rest) =
          (k0, v0) :: dedupRun (some k0) rest := by
        simp [dedupRun, hk]
      rw [hstep]
      by_cases hkk : k = k0
      · subst hkk
        constructor
        · intro hmem
          rcases List.mem_cons.mp hmem with heq | hmem
          · have hv : v = v0 := congrArg Prod.snd heq
            subst hv
            refine ⟨hk, t0, List.mem_cons_self _ _, ?_⟩
            intro w t' hw
            rcases List.mem_cons.mp hw with heq2 | hw
            · have ht : t' = t0 := congrArg Prod.snd heq2
              omega
            · rcases hhead ((k, w), t') hw with hlt | ⟨_, hle2⟩
              · rw [strLt_irrefl] at hlt; cases hlt
              · exact hle2
          · have := dedupRun_keys_gt hheadle htailsorted (k, v) hmem
            rw [strLt_irrefl] at this; cases this
        · rintro ⟨hne, t, hmem, hmax⟩
          have ht0le : t0 ≤ t := hmax v0 t0 (List.mem_cons_self _ _)
          have hv : v = v0 := by
            rcases List.mem_cons.mp hmem with heq | hmem
            · exact congrArg (fun p : TEntry => p.1.2) heq
            · rcases hhead ((k, v), t) hmem with hlt | ⟨_, hle2⟩
              · rw [strLt_irrefl] at hlt; cases hlt
              · have hteq : t = t0 := Nat.le_antisymm hle2 ht0le
                have heqq := huniq ((k, v), t) (List.mem_cons_of_mem _ hmem)
                  ((k, v0), t0) (List.mem_cons_self _ _) rfl hteq
                exact congrArg (fun p : TEntry => p.1.2) heqq
          subst hv
          exact List.mem_cons_self _ _
      · have hlbrest : ∀ y ∈ rest, ∀ kappa, (some k0 : Option Key) = some kappa →
            strLe kappa y.1.1 = true := by
          intro y hy kappa hkap
          rw [(Option.some.inj hkap).symm]
          exact hheadle y hy
        have hih := ih htailsorted huniqrest (some k0) hlbrest
        constructor
        · intro hmem
          rcases List.mem_cons.mp hmem with heq | hmem
          · exact absurd (congrArg Prod.fst heq) hkk
          · rcases hih.mp hmem with ⟨_, t, hmem2, hmax2⟩
            refine ⟨?_, t, List.mem_cons_of_mem _ hmem2, ?_⟩
            · intro hpk
              have h3 : strLe k k0 = true :=
                hlb ((k0, v0), t0) (List.mem_cons_self _ _) k hpk
              have h4 : strLt k k0 = true := strLt_of_strLe_ne h3 hkk
              rcases hhead ((k, v), t) hmem2 with hlt | ⟨heqk, _⟩
              · rw [strLt_asymm h4] at hlt; cases hlt
              · exact hkk heqk.symm
            · intro w t' hw
              rcases List.mem_cons.mp hw with heq2 | hw
              · exact absurd (congrArg (fun p : TEntry => p.1.1) heq2) hkk
              · exact hmax2 w t' hw
        · rintro ⟨hne, t, hmem, hmax⟩
          have hmx := (maxcond_cons_ne hkk).mp ⟨t, hmem, hmax⟩
          apply List.mem_cons_of_mem
          apply hih.mpr
          refine ⟨?_, hmx⟩
          intro hq
          exact hkk (Option.some.inj hq).symm

theorem tagged_mem_iff {segs : List Segment} {k : Key} {v : Value} {t : Nat} :
    ((k, v), t) ∈ taggedEntries segs ↔
      ∃ s ∈ segs, (k, v) ∈ s.entries ∧ s.timestamp = t := by
  induction segs with
  | nil => simp [taggedEntries]
  | cons s rest ih =>
    rw [taggedEntries_cons, List.mem_append, ih, mem_tagged]
    constructor
    · rintro (⟨e, he, heq⟩ | ⟨s', hs', he', ht'⟩)
      · have hkv : (k, v) = e := congrArg Prod.fst heq
        have ht : t = s.timestamp := congrArg Prod.snd heq
        exact ⟨s, List.mem_cons_self _ _, hkv ▸ he, ht.symm⟩
      · exact ⟨s', List.mem_cons_of_mem _ hs', he', ht'⟩
    · rintro ⟨s', hs', he', ht'⟩
      rcases List.mem_cons.mp hs' with rfl | hs'
      · exact Or.inl ⟨(k, v), he', by rw [ht']⟩
      · exact Or.inr ⟨s', hs', he', ht'⟩

theorem tagged_uniq {segs : List Segment}
    (hsort : ∀ s ∈ segs, sortedSeg s)
    (hts : segs.Pairwise (fun a b => a.timestamp ≠ b.timestamp)) :
    ∀ a ∈ taggedEntries segs, ∀ b ∈ taggedEntries segs,
      a.1.1 = b.1.1 → a.2 = b.2 → a = b := by
  intro a ha b hb hkey hts'
  rcases a with ⟨⟨ka, va⟩, ta⟩
  rcases b with ⟨⟨kb, vb⟩, tb⟩
  simp only at hkey hts'
  subst hkey
  subst hts'
  rcases tagged_mem_iff.mp ha with ⟨sa, hsa, hea, hta⟩
  rcases tagged_mem_iff.mp hb with ⟨sb, hsb, heb, htb⟩
  have hnd : (segs.map Segment.timestamp).Nodup := List.pairwise_map.mpr hts
  have hseq : sa = sb := List.inj_on_of_nodup_map hnd hsa hsb (by rw [hta, htb])
  subst hseq
  have hks : (sa.entries.map Prod.fst).Nodup :=
    List.pairwise_map.mpr ((hsort sa hsa).imp (fun hlt => strLt_ne hlt))
  have heqe := List.inj_on_of_nodup_map hks hea heb rfl
  have hv : va = vb := congrArg Prod.snd heqe
  rw [hv]

theorem maxcond_iff_segments {segs : List Segment} {k : Key} {v : Value} :
    (∃ t, ((k, v), t) ∈ taggedEntries segs ∧
        ∀ w t', ((k, w), t') ∈ taggedEntries segs → t' ≤ t) ↔
      ∃ s ∈ segs, (k, v) ∈ s.entries ∧
        ∀ s' ∈ segs, (∃ w, (k, w) ∈ s'.entries) → s'.timestamp ≤ s.timestamp := by
  constructor
  · rintro ⟨t, hmem, hmax⟩
    rcases tagged_mem_iff.mp hmem with ⟨s, hs, he, hts⟩
    refine ⟨s, hs, he, ?_⟩
    rintro s' hs' ⟨w, hw⟩
    have hm : ((k, w), s'.timestamp) ∈ taggedEntries segs :=
      tagged_mem_iff.mpr ⟨s', hs', hw, rfl⟩
    have := hmax w s'.timestamp hm
    omega
  · rintro ⟨s, hs, he, hmax⟩
    refine ⟨s.timestamp, tagged_mem_iff.mpr ⟨s, hs, he, rfl⟩, ?_⟩
    intro w t' hmem
    rcases tagged_mem_iff.mp hmem with ⟨s', hs', hw, hts'⟩
    have := hmax s' hs' ⟨w, hw⟩
    omega

/-! ## C9 -/

/-- C9: for any finite collection of individually strictly key-sorted
segments with pairwise distinct timestamps, `chain_segments` emits a
stream that is strictly increasing by key, and a pair `(k, v)` appears in
the output exactly when some segment `s` contains it and `s` has the
largest timestamp among all segments containing `k` — so whenever `k` is in
segments `s_i` and `s_j` with `timestamp(s_i) < timestamp(s_j)`, only the
value from `s_j` survives. -/
theorem c9_chain_segments_recency (segs : List Segment)
    (hsort : ∀ s ∈ segs, sortedSeg s)
    (hts : segs.Pairwise (fun a b => a.timestamp ≠ b.timestamp)) :
    (chainSegments segs).Pairwise (fun a b => strLt a.1 b.1 = true) ∧
      ∀ k v, ((k, v) ∈ chainSegments segs ↔
        ∃ s ∈ segs, (k, v) ∈ s.entries ∧
          ∀ s' ∈ segs, (∃ w, (k, w) ∈ s'.entries) → s'.timestamp ≤ s.timestamp) := by
  have hpp : (popGo (totalSize segs) segs).Perm (taggedEntries segs) :=
    popGo_perm (Nat.le_refl _)
  have hps : (popGo (totalSize segs) segs).Pairwise teLE :=
    popGo_sorted (Nat.le_refl _) hsort
  have hchain : chainSegments segs = dedupRun none (popGo (totalSize segs) segs) :=
    chainGo_eq_dedup _ _ _
  have huniq : ∀ a ∈ popGo (totalSize segs) segs, ∀ b ∈ popGo (totalSize segs) segs,
      a.1.1 = b.1.1 → a.2 = b.2 → a = b := by
    intro a ha b hb
    exact tagged_uniq hsort hts a (hpp.subset ha) b (hpp.subset hb)
  constructor
  · rw [hchain]
    exact dedupRun_sorted hps none
  · intro k v
    rw [hchain, dedupRun_mem_iff hps huniq none (by simp)]
    have hmm : ∀ x : TEntry, x ∈ popGo (totalSize segs) segs ↔ x ∈ taggedEntries segs :=
      fun x => hpp.mem_iff
    simp only [hmm]
    simp only [ne_eq, reduceCtorEq, not_false_eq_true, true_and]
    exact maxcond_iff_segments

/-- The two segments of the repo's own duplicate-key merge test: an older
segment (timestamp 1) with `a` and `c`, a newer one (timestamp 2) with a
fresher value for `a`. -/
def segsW : List Segment := [⟨[("a", "1"), ("c", "3")], 1⟩, ⟨[("a", "5")], 2⟩]

/-- C9, witness: on `segsW` the hypotheses hold by computation and the
theorem yields both the strict key-sortedness of the merged stream and the
recency fact that `("a", "5")` — the newer segment's value — is emitted. -/
theorem c9_witness :
    ((∀ s ∈ segsW, sortedSeg s) ∧
      segsW.Pairwise (fun a b => a.timestamp ≠ b.timestamp)) ∧
    (chainSegments segsW).Pairwise (fun a b => strLt a.1 b.1 = true) ∧
    ("a", "5") ∈ chainSegments segsW :=
  ⟨⟨by decide, by decide⟩,
    (c9_chain_segments_recency segsW (by decide) (by decide)).1,
    ((c9_chain_segments_recency segsW (by decide) (by decide)).2 "a" "5").mpr
      ⟨⟨[("a", "5")], 2⟩, by decide, by decide, by
        intro s' hs' _
        rcases List.mem_cons.mp hs' with rfl | hs'
        · decide
        · rcases List.mem_cons.mp hs' with rfl | hnil
          · decide
          · cases hnil⟩⟩
